import Mathlib

/-!
Verification of the PC2 streaming tree-builder (`src/pc2/cuda/pc2.cu` and
`src/src/pc2/cuda/pc2.cuh`) against its natural-language specification.

The development shallowly embeds the pure parts of the code: the
`tree_address_t` offset arithmetic, the per-resource layer-offset tables,
`write_roots`, the `pc2_batcher_t` queue adapter, the `hash_cpu` index
arithmetic, the DATA_WAIT encoding loop, and the buffer shapes fed to
`process_writes`.  Machine integers (`size_t`) are modelled as `Nat`; the
computations involved never overflow 64 bits for the parameters the engine
accepts, and no claim depends on wrap-around.
-/

/-- Iterated integer division: `repDiv a n k` is the result of executing
`for (i = 0; i < k; i++) n /= a;` — used by the `tree_address_t` constructor
(`pc2.cuh:23-25`) and for the tree-r layer-offset table (`pc2.cu:65-68`). -/
def repDiv (a : Nat) : Nat → Nat → Nat
  | n, 0 => n
  | n, k + 1 => repDiv a (n / a) k

/-- Node count of stored layer `L` given `n0` nodes at stored layer `0`:
each layer up divides the count by the arity, mirroring the
`node_count /= arity` step of the constructor loop (`pc2.cuh:30`). -/
def countAt (a : Nat) : Nat → Nat → Nat
  | n0, 0 => n0
  | n0, L + 1 => countAt a (n0 / a) L

/-- Fuelled form of the `tree_address_t` constructor loop
(`pc2.cuh:26-32`): while `node_count > 1` push the running byte offset and
advance `offset += node_count * node_size; node_count /= arity`; finally
push the last offset.  The loop terminates for `arity ≥ 2` because
`node_count` strictly decreases; `fuel` bounds the iteration count. -/
def buildOffsetsF (a s : Nat) : Nat → Nat → Nat → List Nat
  | 0, _, off => [off]
  | fuel + 1, n, off =>
    if 1 < n ∧ 2 ≤ a then off :: buildOffsetsF a s fuel (n / a) (off + n * s)
    else [off]

/-- The constructor loop with adequate fuel: the loop runs at most
`log_a n ≤ n` iterations, so `n` units of fuel always suffice. -/
def buildOffsets (a s n off : Nat) : List Nat := buildOffsetsF a s n n off

/-- `tree_address_t` (`pc2.cuh:11-52`): leaf count, arity, node size and the
precomputed per-layer byte offsets of the serialized tree file. -/
structure tree_address_t where
  leaf_count : Nat
  arity : Nat
  node_size : Nat
  layer_offsets : List Nat

/-- The `tree_address_t` constructor (`pc2.cuh:17-33`): skip `layer_skips`
bottom layers by dividing the leaf count, then record one offset per
remaining layer. -/
def mkTreeAddress (leaf_count arity node_size layer_skips : Nat) : tree_address_t :=
  { leaf_count := leaf_count
    arity := arity
    node_size := node_size
    layer_offsets := buildOffsets arity node_size (repDiv arity leaf_count layer_skips) 0 }

/-- `tree_address_t::address` (`pc2.cuh:35-38`):
`layer_offsets[layer] + node * node_size`. -/
def tree_address_t.address (t : tree_address_t) (layer node : Nat) : Nat :=
  t.layer_offsets.getD layer 0 + node * t.node_size

/-- `tree_address_t::data_size` (`pc2.cuh:41-43`):
`layer_offsets.back() + node_size`. -/
def tree_address_t.data_size (t : tree_address_t) : Nat :=
  t.layer_offsets.getLastD 0 + t.node_size

/-- Node count at stored layer `L` of the tree serialized by
`mkTreeAddress lc a ns skips`. -/
def storedCount (a lc skips L : Nat) : Nat := countAt a (repDiv a lc skips) L

/-- Sum of the strictly-positive powers `a^1 + … + a^m` (so
`geomSum1 a m + 1 = a^0 + … + a^m`), the node total of a perfect arity-`a`
tree with `a^m` bottom nodes, counted without its bottom layer. -/
def geomSum1 (a : Nat) : Nat → Nat
  | 0 => 0
  | m + 1 => a ^ (m + 1) + geomSum1 a m

/-- Fuelled form of the layer-offset-table loop (`pc2.cu:59-63` and
`pc2.cu:69-72`): while `layer_offset >= arity` push it and divide by the
arity.  `fuel` bounds the iteration count; the value strictly decreases for
`arity ≥ 2`, so fuel equal to the initial value always suffices. -/
def buildLayerOffsetsF (a : Nat) : Nat → Nat → List Nat
  | 0, _ => []
  | fuel + 1, lo =>
    if a ≤ lo ∧ 2 ≤ a then lo :: buildLayerOffsetsF a fuel (lo / a)
    else []

/-- `layer_offsets_c` (`pc2.cu:58-63`): the interleaving table built from
`nodes_per_stream = nodes_to_read / stream_count`. -/
def layer_offsets_c (a nodes_per_stream : Nat) : List Nat :=
  buildLayerOffsetsF a nodes_per_stream nodes_per_stream

/-- `layer_offsets_r` (`pc2.cu:65-72`): as `layer_offsets_c` but starting
from `nodes_per_stream` divided `discard_rows + 1` times by the arity. -/
def layer_offsets_r (a nodes_per_stream discard_rows : Nat) : List Nat :=
  buildLayerOffsetsF a (repDiv a nodes_per_stream (discard_rows + 1))
    (repDiv a nodes_per_stream (discard_rows + 1))

/-- The table value claimed by the specification for stored layer `L`
(`spec.md` §4.5: layer_offset_c[L] = nodes_per_stream / A^(L+1)). -/
def specLayerOffsetC (a nodes_per_stream L : Nat) : Nat :=
  nodes_per_stream / a ^ (L + 1)

theorem repDiv_eq_div_pow (a : Nat) : ∀ n k, repDiv a n k = n / a ^ k := by
  intro n k
  induction k generalizing n with
  | zero => simp [repDiv]
  | succ k ih =>
    rw [repDiv, ih, Nat.div_div_eq_div_mul, pow_succ']

theorem countAt_eq_div_pow (a : Nat) : ∀ n L, countAt a n L = n / a ^ L := by
  intro n L
  induction L generalizing n with
  | zero => simp [countAt]
  | succ L ih =>
    rw [countAt, ih, Nat.div_div_eq_div_mul, pow_succ']

theorem buildLayerOffsetsF_getD (a : Nat) (ha : 2 ≤ a) :
    ∀ fuel lo L, lo ≤ fuel → L < (buildLayerOffsetsF a fuel lo).length →
      (buildLayerOffsetsF a fuel lo).getD L 0 = lo / a ^ L := by
  intro fuel
  induction fuel with
  | zero =>
    intro lo L hlo hL
    simp [buildLayerOffsetsF] at hL
  | succ fuel ih =>
    intro lo L hlo hL
    rw [buildLayerOffsetsF] at hL ⊢
    by_cases hc : a ≤ lo ∧ 2 ≤ a
    · rw [if_pos hc] at hL ⊢
      match L with
      | 0 => simp
      | L + 1 =>
        have hrec : lo / a ≤ fuel := by
          have h1 : lo / a < lo := Nat.div_lt_self (by omega) (by omega)
          omega
        have hlen : L < (buildLayerOffsetsF a fuel (lo / a)).length := by
          simpa using hL
        simp only [List.getD_cons_succ]
        rw [ih (lo / a) L hrec hlen, Nat.div_div_eq_div_mul, pow_succ']
    · rw [if_neg hc] at hL
      simp at hL

theorem buildOffsetsF_ne_nil (a s : Nat) :
    ∀ fuel n off, buildOffsetsF a s fuel n off ≠ [] := by
  intro fuel n off
  match fuel with
  | 0 => simp [buildOffsetsF]
  | fuel + 1 =>
    rw [buildOffsetsF]
    by_cases hc : 1 < n ∧ 2 ≤ a
    · simp [hc]
    · simp [hc]

theorem buildOffsetsF_head (a s : Nat) :
    ∀ fuel n off, (buildOffsetsF a s fuel n off).getD 0 0 = off := by
  intro fuel n off
  match fuel with
  | 0 => simp [buildOffsetsF]
  | fuel + 1 =>
    rw [buildOffsetsF]
    by_cases hc : 1 < n ∧ 2 ≤ a
    · simp [hc]
    · simp [hc]

theorem getLastD_default_irrel {α : Type} (l : List α) (h : l ≠ []) (d1 d2 : α) :
    l.getLastD d1 = l.getLastD d2 := by
  cases l with
  | nil => exact absurd rfl h
  | cons x xs => rw [List.getLastD_cons, List.getLastD_cons]

theorem buildOffsetsF_getLastD_default (a s : Nat) :
    ∀ fuel n off d1 d2,
      (buildOffsetsF a s fuel n off).getLastD d1
        = (buildOffsetsF a s fuel n off).getLastD d2 := by
  intro fuel n off d1 d2
  exact getLastD_default_irrel _ (buildOffsetsF_ne_nil a s fuel n off) d1 d2

theorem buildOffsetsF_le_getLastD (a s : Nat) :
    ∀ fuel n off d, off ≤ (buildOffsetsF a s fuel n off).getLastD d := by
  intro fuel
  induction fuel with
  | zero => intro n off d; simp [buildOffsetsF]
  | succ fuel ih =>
    intro n off d
    rw [buildOffsetsF]
    by_cases hc : 1 < n ∧ 2 ≤ a
    · rw [if_pos hc, List.getLastD_cons]
      calc off ≤ off + n * s := Nat.le_add_right _ _
        _ ≤ _ := ih (n / a) (off + n * s) off
    · simp [hc]

theorem buildOffsetsF_getD_succ (a s : Nat) (ha : 2 ≤ a) :
    ∀ fuel n off i, n ≤ fuel →
      i + 1 < (buildOffsetsF a s fuel n off).length →
      (buildOffsetsF a s fuel n off).getD (i + 1) 0
        = (buildOffsetsF a s fuel n off).getD i 0 + countAt a n i * s := by
  intro fuel
  induction fuel with
  | zero =>
    intro n off i hn hi
    simp [buildOffsetsF] at hi
  | succ fuel ih =>
    intro n off i hn hi
    rw [buildOffsetsF] at hi ⊢
    by_cases hc : 1 < n ∧ 2 ≤ a
    · rw [if_pos hc] at hi ⊢
      have hrec : n / a ≤ fuel := by
        have h1 : n / a < n := Nat.div_lt_self (by omega) (by omega)
        omega
      match i with
      | 0 =>
        simp only [List.getD_cons_succ, List.getD_cons_zero]
        rw [buildOffsetsF_head, countAt]
      | i + 1 =>
        simp only [List.getD_cons_succ]
        have hlen : i + 1 < (buildOffsetsF a s fuel (n / a) (off + n * s)).length := by
          simpa using hi
        rw [ih (n / a) (off + n * s) i hrec hlen]
        rfl
    · rw [if_neg hc] at hi
      simp at hi

theorem buildOffsetsF_getD_mono (a s : Nat) (ha : 2 ≤ a) (fuel n off : Nat)
    (hn : n ≤ fuel) :
    ∀ i j, i ≤ j → j < (buildOffsetsF a s fuel n off).length →
      (buildOffsetsF a s fuel n off).getD i 0
        ≤ (buildOffsetsF a s fuel n off).getD j 0 := by
  intro i j
  induction j with
  | zero =>
    intro hij hj
    have : i = 0 := Nat.le_zero.mp hij
    simp [this]
  | succ j ih =>
    intro hij hj
    by_cases hie : i = j + 1
    · simp [hie]
    · have hij2 : i ≤ j := by omega
      have hj2 : j < (buildOffsetsF a s fuel n off).length := by omega
      calc (buildOffsetsF a s fuel n off).getD i 0
          ≤ (buildOffsetsF a s fuel n off).getD j 0 := ih hij2 hj2
        _ ≤ _ := by
            rw [buildOffsetsF_getD_succ a s ha fuel n off j hn hj]
            exact Nat.le_add_right _ _

theorem buildOffsetsF_addr_lt (a s : Nat) (ha : 2 ≤ a) (hs : 1 ≤ s) :
    ∀ fuel n off i node, n ≤ fuel →
      i < (buildOffsetsF a s fuel n off).length → node < countAt a n i →
      (buildOffsetsF a s fuel n off).getD i 0 + node * s
        < (buildOffsetsF a s fuel n off).getLastD 0 + s := by
  intro fuel
  induction fuel with
  | zero =>
    intro n off i node hn hi hnode
    have hn0 : n = 0 := Nat.le_zero.mp hn
    simp [buildOffsetsF] at hi
    subst hn0
    have hz : countAt a 0 i = 0 := by
      cases i with
      | zero => rfl
      | succ i =>
        rw [countAt_eq_div_pow]
        simp
    omega
  | succ fuel ih =>
    intro n off i node hn hi hnode
    rw [buildOffsetsF] at hi ⊢
    by_cases hc : 1 < n ∧ 2 ≤ a
    · rw [if_pos hc] at hi ⊢
      have hrec : n / a ≤ fuel := by
        have h1 : n / a < n := Nat.div_lt_self (by omega) (by omega)
        omega
      rw [List.getLastD_cons]
      rw [buildOffsetsF_getLastD_default a s fuel (n / a) (off + n * s) off 0]
      match i with
      | 0 =>
        have hcnt : countAt a n 0 = n := rfl
        rw [hcnt] at hnode
        have h1 : (node + 1) * s ≤ n * s :=
          Nat.mul_le_mul_right s (by omega)
        have h2 : off + n * s
            ≤ (buildOffsetsF a s fuel (n / a) (off + n * s)).getLastD 0 :=
          buildOffsetsF_le_getLastD a s fuel (n / a) (off + n * s) 0
        simp only [List.getD_cons_zero]
        have h3 : node * s + s ≤ n * s := by
          have : (node + 1) * s = node * s + s := by ring
          omega
        omega
      | i + 1 =>
        simp only [List.getD_cons_succ]
        have hlen : i < (buildOffsetsF a s fuel (n / a) (off + n * s)).length := by
          simpa using hi
        have hnode2 : node < countAt a (n / a) i := hnode
        exact ih (n / a) (off + n * s) i node hrec hlen hnode2
    · rw [if_neg hc] at hi ⊢
      have hn1 : ¬ 1 < n := fun h => hc ⟨h, ha⟩
      simp at hi
      subst hi
      have hcnt : countAt a n 0 = n := rfl
      rw [hcnt] at hnode
      simp only [List.getD_cons_zero, List.getLastD_cons, List.getLastD_nil]
      have : node = 0 := by omega
      subst this
      omega

theorem buildOffsetsF_getLastD_pow (a s : Nat) (ha : 2 ≤ a) :
    ∀ m fuel off d, a ^ m ≤ fuel →
      (buildOffsetsF a s fuel (a ^ m) off).getLastD d = off + s * geomSum1 a m := by
  intro m
  induction m with
  | zero =>
    intro fuel off d hf
    have : ¬ (1 < a ^ 0 ∧ 2 ≤ a) := by simp
    match fuel with
    | 0 => simp [buildOffsetsF, geomSum1]
    | fuel + 1 =>
      rw [buildOffsetsF, if_neg this]
      simp [geomSum1]
  | succ m ih =>
    intro fuel off d hf
    have hgt : 1 < a ^ (m + 1) := Nat.one_lt_pow (by omega) (by omega)
    cases fuel with
    | zero => omega
    | succ fuel =>
      rw [buildOffsetsF, if_pos ⟨hgt, ha⟩, List.getLastD_cons]
      have hdiv : a ^ (m + 1) / a = a ^ m := by
        rw [pow_succ]
        exact Nat.mul_div_cancel _ (by omega)
      have hlt : a ^ m < a ^ (m + 1) := Nat.pow_lt_pow_succ (by omega)
      have hrec : a ^ m ≤ fuel := by omega
      rw [hdiv, ih fuel (off + a ^ (m + 1) * s) off hrec]
      rw [geomSum1]
      ring

theorem geomSum1_succ_eq_range (a : Nat) :
    ∀ m, geomSum1 a m + 1 = Finset.sum (Finset.range (m + 1)) (fun i => a ^ i) := by
  intro m
  induction m with
  | zero => simp [geomSum1]
  | succ m ih =>
    rw [Finset.sum_range_succ, geomSum1]
    omega

/-- C5: for every NodeId inside the tree (stored layer `l`, node index
below that layer's node count), `tree_address_t.address` equals
`layer_offsets[l] + node * node_size`, is strictly below `data_size()`,
and is strictly monotone in the lexicographic order on `(layer, node)`. -/
theorem tree_address_bound_monotone (lc a ns skips : Nat) (t : tree_address_t)
    (ht : t = mkTreeAddress lc a ns skips) (ha : 2 ≤ a) (hns : 1 ≤ ns) :
    (∀ l n, l < t.layer_offsets.length → n < storedCount a lc skips l →
      t.address l n = t.layer_offsets.getD l 0 + n * ns ∧
      t.address l n < t.data_size) ∧
    (∀ l1 n1 l2 n2, l2 < t.layer_offsets.length →
      n1 < storedCount a lc skips l1 → n2 < storedCount a lc skips l2 →
      (l1 < l2 ∨ (l1 = l2 ∧ n1 < n2)) →
      t.address l1 n1 < t.address l2 n2) := by
  have hlo : t.layer_offsets
      = buildOffsetsF a ns (repDiv a lc skips) (repDiv a lc skips) 0 := by
    rw [ht]; rfl
  have hnsz : t.node_size = ns := by rw [ht]; rfl
  constructor
  · intro l n hl hn
    rw [hlo] at hl
    have hn2 : n < countAt a (repDiv a lc skips) l := hn
    constructor
    · simp only [tree_address_t.address, hnsz]
    · simp only [tree_address_t.address, tree_address_t.data_size, hlo, hnsz]
      exact buildOffsetsF_addr_lt a ns ha hns _ _ 0 l n (le_refl _) hl hn2
  · intro l1 n1 l2 n2 hl2 hn1 hn2 hlt
    rw [hlo] at hl2
    have hn1c : n1 < countAt a (repDiv a lc skips) l1 := hn1
    have hn2c : n2 < countAt a (repDiv a lc skips) l2 := hn2
    simp only [tree_address_t.address, hlo, hnsz]
    rcases hlt with hlt | ⟨heq, hlt⟩
    · have hl1s : l1 + 1 ≤ l2 := hlt
      have hsucc := buildOffsetsF_getD_succ a ns ha
        (repDiv a lc skips) (repDiv a lc skips) 0 l1 (le_refl _) (by omega)
      have hmono := buildOffsetsF_getD_mono a ns ha
        (repDiv a lc skips) (repDiv a lc skips) 0 (le_refl _) (l1 + 1) l2 hl1s hl2
      have h1 : (n1 + 1) * ns ≤ countAt a (repDiv a lc skips) l1 * ns :=
        Nat.mul_le_mul_right ns (by omega)
      have h1e : (n1 + 1) * ns = n1 * ns + ns := by ring
      omega
    · subst heq
      have : n1 * ns < n2 * ns := (Nat.mul_lt_mul_right (by omega : 0 < ns)).mpr hlt
      omega

theorem tree_address_bound_monotone_witness :
    (mkTreeAddress 64 8 32 0).address 1 3 < (mkTreeAddress 64 8 32 0).data_size ∧
    (mkTreeAddress 64 8 32 0).address 0 63 < (mkTreeAddress 64 8 32 0).address 1 0 :=
  ⟨((tree_address_bound_monotone 64 8 32 0 _ rfl (by decide) (by decide)).1 1 3
      (by decide) (by decide)).2,
   (tree_address_bound_monotone 64 8 32 0 _ rfl (by decide) (by decide)).2 0 63 1 0
      (by decide) (by decide) (by decide) (by decide)⟩

/-- C6: constructing with `layer_skips = D + 1` over `leaf_count = A ^ e`
leaves omits the bottom `D + 1` layers: stored layer 0 has
`leaf_count / A ^ (D+1)` nodes, `layer_offsets[0] = 0`, consecutive offsets
differ by the layer's node count times the node size, and `data_size()` is
`node_size` times the total node count of the logical tree's layers
strictly above the bottom `D + 1` (layers `D+1, …, e`, with
`leaf_count / A ^ (D+1+i)` nodes each). -/
theorem tree_address_layer_skips (lc a ns D e : Nat) (t : tree_address_t)
    (ht : t = mkTreeAddress lc a ns (D + 1)) (ha : 2 ≤ a)
    (hlc : lc = a ^ e) (he : D + 1 ≤ e) :
    storedCount a lc (D + 1) 0 = lc / a ^ (D + 1) ∧
    t.layer_offsets.getD 0 0 = 0 ∧
    (∀ i, i + 1 < t.layer_offsets.length →
      t.layer_offsets.getD (i + 1) 0
        = t.layer_offsets.getD i 0 + storedCount a lc (D + 1) i * ns) ∧
    t.data_size
      = ns * Finset.sum (Finset.range (e - D)) (fun i => lc / a ^ (D + 1 + i)) := by
  have hlo : t.layer_offsets
      = buildOffsetsF a ns (repDiv a lc (D + 1)) (repDiv a lc (D + 1)) 0 := by
    rw [ht]; rfl
  have hnsz : t.node_size = ns := by rw [ht]; rfl
  have hn0 : repDiv a lc (D + 1) = a ^ (e - (D + 1)) := by
    rw [repDiv_eq_div_pow, hlc, Nat.pow_div he (by omega)]
  refine ⟨?_, ?_, ?_, ?_⟩
  · exact repDiv_eq_div_pow a lc (D + 1)
  · rw [hlo]
    exact buildOffsetsF_head a ns _ _ 0
  · intro i hi
    rw [hlo] at hi ⊢
    exact buildOffsetsF_getD_succ a ns ha _ _ 0 i (le_refl _) hi
  · simp only [tree_address_t.data_size, hlo, hnsz]
    rw [hn0]
    rw [buildOffsetsF_getLastD_pow a ns ha (e - (D + 1)) (a ^ (e - (D + 1))) 0 0
      (le_refl _)]
    have hsum : Finset.sum (Finset.range (e - D)) (fun i => lc / a ^ (D + 1 + i))
        = Finset.sum (Finset.range (e - (D + 1) + 1)) (fun i => a ^ (e - (D + 1) - i)) := by
      have hed : e - D = e - (D + 1) + 1 := by omega
      rw [hed]
      refine Finset.sum_congr rfl ?_
      intro i hi
      rw [Finset.mem_range] at hi
      rw [hlc, Nat.pow_div (by omega) (by omega)]
      congr 1
      omega
    have hrefl : Finset.sum (Finset.range (e - (D + 1) + 1))
          (fun i => a ^ (e - (D + 1) - i))
        = Finset.sum (Finset.range (e - (D + 1) + 1)) (fun i => a ^ i) := by
      have h := Finset.sum_range_reflect (fun j => a ^ j) (e - (D + 1) + 1)
      simpa using h
    rw [hsum, hrefl, ← geomSum1_succ_eq_range]
    ring

theorem tree_address_layer_skips_witness :
    storedCount 8 64 1 0 = 64 / 8 ^ 1 ∧
    (mkTreeAddress 64 8 32 1).data_size
      = 32 * Finset.sum (Finset.range (2 - 0)) (fun i => 64 / 8 ^ (0 + 1 + i)) :=
  ⟨(tree_address_layer_skips 64 8 32 0 2 _ rfl (by decide)
      (by decide) (by decide)).1,
   (tree_address_layer_skips 64 8 32 0 2 _ rfl (by decide)
      (by decide) (by decide)).2.2.2⟩

/-- C2 (amended): the interleaving tables built at engine construction
satisfy `layer_offsets_c[L] = nodes_per_stream / A ^ L` and
`layer_offsets_r[L] = (nodes_per_stream / A ^ (D+1)) / A ^ L` — the
exponent is `L`, not `L + 1` as the specification states. -/
theorem layer_offsets_table_values (a nps D L : Nat) (ha : 2 ≤ a) :
    (L < (layer_offsets_c a nps).length →
      (layer_offsets_c a nps).getD L 0 = nps / a ^ L) ∧
    (L < (layer_offsets_r a nps D).length →
      (layer_offsets_r a nps D).getD L 0 = nps / a ^ (D + 1) / a ^ L) := by
  constructor
  · intro hL
    exact buildLayerOffsetsF_getD a ha nps nps L (le_refl _) hL
  · intro hL
    have h := buildLayerOffsetsF_getD a ha (repDiv a nps (D + 1))
      (repDiv a nps (D + 1)) L (le_refl _) hL
    rw [layer_offsets_r, h, repDiv_eq_div_pow]

theorem layer_offsets_table_values_witness :
    (layer_offsets_c 8 64).getD 1 0 = 64 / 8 ^ 1 ∧
    (layer_offsets_r 8 64 0).getD 0 0 = 64 / 8 ^ (0 + 1) / 8 ^ 0 :=
  ⟨(layer_offsets_table_values 8 64 0 1 (by decide)).1 (by decide),
   (layer_offsets_table_values 8 64 0 0 (by decide)).2 (by decide)⟩

/-- C2 as stated is false on the code: with arity 8 and
`nodes_per_stream = 8` the table is `[8]`, so entry `L = 0` is `8`, while
the claimed value `nodes_per_stream / A ^ (L+1)` is `1`. -/
theorem layer_offsets_spec_counterexample :
    0 < (layer_offsets_c 8 8).length ∧
    (layer_offsets_c 8 8).getD 0 0 ≠ specLayerOffsetC 8 8 0 := by decide

/-- `pc2_t::write_roots` (`pc2.cu:1071-1120`): the two field elements
written consecutively into sector `sector`'s p_aux file, over an abstract
field-element type `F` and an abstract CPU tree-arity Poseidon hash `H`
(the hasher consumes `TREE_ARITY = A` elements).  `roots_c` / `roots_r`
model the flat `tree_c_partition_roots` / `tree_r_partition_roots` arrays,
indexed `partition * S + sector`; `P` is `params.GetNumTreeRCFiles()` and
`S` is `C::PARALLEL_SECTORS`.  When `P > 1` the code loads `in[i] =
roots[i * S + sector]` for `i < A` and hashes; when `P = 1` it copies the
single root; when `tree_r_only` the first element written is the zero
field element. -/
def write_roots (F : Type) [Zero F] (H : List F → F) (P S A : Nat)
    (tree_r_only : Bool) (roots_c roots_r : Nat → F) (sector : Nat) : List F :=
  if 1 < P then
    let out_c := H ((List.range A).map (fun i => roots_c (i * S + sector)))
    let out_r := H ((List.range A).map (fun i => roots_r (i * S + sector)))
    (if tree_r_only then [(0 : F)] else [out_c]) ++ [out_r]
  else
    (if tree_r_only then [(0 : F)] else [roots_c sector]) ++ [roots_r sector]

/-- The p_aux contents asserted by claim C1 (following the specification's
words): when `P > 1` the first element is the hash of the sector's `P`
per-partition tree-C roots, the second the hash of its `P` tree-R roots. -/
def p_aux_claim (F : Type) [Zero F] (H : List F → F) (P S : Nat)
    (tree_r_only : Bool) (roots_c roots_r : Nat → F) (sector : Nat) : List F :=
  if 1 < P then
    [if tree_r_only then (0 : F)
     else H ((List.range P).map (fun i => roots_c (i * S + sector))),
     H ((List.range P).map (fun i => roots_r (i * S + sector)))]
  else
    [if tree_r_only then (0 : F) else roots_c sector, roots_r sector]

/-- The amended p_aux contents: when `P > 1` the hashed lists read
`TREE_ARITY = A` root-table entries (`i * S + sector` for `i < A`), which
are the sector's `P` per-partition roots exactly when `P = A`. -/
def p_aux_amended (F : Type) [Zero F] (H : List F → F) (P S A : Nat)
    (tree_r_only : Bool) (roots_c roots_r : Nat → F) (sector : Nat) : List F :=
  if 1 < P then
    [if tree_r_only then (0 : F)
     else H ((List.range A).map (fun i => roots_c (i * S + sector))),
     H ((List.range A).map (fun i => roots_r (i * S + sector)))]
  else
    [if tree_r_only then (0 : F) else roots_c sector, roots_r sector]

/-- C1 (amended): `write_roots` writes exactly two consecutive field
elements; when `P > 1` they are tree-arity Poseidon hashes of the `A`
root-table entries of the sector (zero instead of the tree-C hash when
tree_r_only), and when `P = 1` the single partition roots directly. -/
theorem write_roots_matches_amended (F : Type) [Zero F] (H : List F → F)
    (P S A : Nat) (tree_r_only : Bool) (roots_c roots_r : Nat → F) (sector : Nat) :
    write_roots F H P S A tree_r_only roots_c roots_r sector
      = p_aux_amended F H P S A tree_r_only roots_c roots_r sector ∧
    (write_roots F H P S A tree_r_only roots_c roots_r sector).length = 2 := by
  unfold write_roots p_aux_amended
  by_cases hP : 1 < P <;> cases tree_r_only <;> simp [hP]

/-- C1 as stated is false on the code: with `P = 2` partitions, `S = 1`,
tree arity `A = 8`, the code hashes 8 root-table entries, not the 2
per-partition roots.  Instantiating the abstract hash with `List.length`
separates the two. -/
theorem write_roots_claim_counterexample :
    write_roots Nat List.length 2 1 8 false (fun _ => 0) (fun _ => 0) 0
      ≠ p_aux_claim Nat List.length 2 1 false (fun _ => 0) (fun _ => 0) 0 := by
  decide

/-- Modelled from the spec: `buf_to_disk_batch_t` and `mtx_fifo_t` are
declared outside the provided sources.  Spec §3: "BufToDiskBatch =
fixed-length array of K BufToDisk*"; the three bounded MPMC FIFO queues
hold batches.  Batches and buffers are identified by numeric ids; `slots`
maps a batch id and slot index to the buffer pointer stored there
(`none` = nullptr / no valid pointer), `bufSize` maps a buffer id to its
`size` field, and the queues are lists (enqueue appends at the tail,
dequeue removes the head). -/
structure BatcherState where
  poolFull : List Nat
  poolEmpty : List Nat
  toDisk : List Nat
  bundle : Option Nat
  unbundle : Option Nat
  idxBundle : Nat
  idxUnbundle : Nat
  slots : Nat → Nat → Option Nat
  bufSize : Nat → Nat

/-- Store buffer pointer `v` in slot `i` of batch `b`. -/
def setSlot (f : Nat → Nat → Option Nat) (b i : Nat) (v : Option Nat) :
    Nat → Nat → Option Nat :=
  fun b2 i2 => if b2 = b ∧ i2 = i then v else f b2 i2

/-- The padding loop of `pc2_batcher_t::flush` (`pc2.cu:485-490`): while
`idx_bundle < BATCH_SIZE`, zero the size of `unbundle->batch[idx_unbundle]`,
store that pointer into `bundle->batch[idx_bundle]`, and advance.  The body
advances `idx_unbundle` twice per iteration — once inside
`batch[idx_unbundle++]` and once by the trailing `idx_unbundle++` — so it
reads unbundle slots `k, k+2, k+4, …`.  `fuel` is `BATCH_SIZE - idx_bundle`,
the exact iteration count; reading a slot holding no pointer models a
nullptr dereference / out-of-bounds array read and yields `none`. -/
def padLoop (ub bb : Nat) : Nat → BatcherState → Option BatcherState
  | 0, s => some s
  | fuel + 1, s =>
    match s.slots ub s.idxUnbundle with
    | none => none
    | some buf =>
      padLoop ub bb fuel
        { s with
          bufSize := Function.update s.bufSize buf 0
          slots := setSlot s.slots bb s.idxBundle (some buf)
          idxUnbundle := s.idxUnbundle + 2
          idxBundle := s.idxBundle + 1 }

/-- `pc2_batcher_t::flush` (`pc2.cu:480-506`) with batch size `K`.
`none` models an assertion failure or a null-pointer access.  In the
untouched branch (`idx_bundle = 0`) the code enqueues `bundle` into
`pool_full` (`pc2.cu:499`), not `unbundle`. -/
def batcherFlush (K : Nat) (s : BatcherState) : Option BatcherState :=
  if s.idxBundle = s.idxUnbundle then
    if 0 < s.idxBundle then
      match s.bundle, s.unbundle with
      | some bb, some ub =>
        (padLoop ub bb (K - s.idxBundle) s).map (fun s1 =>
          { s1 with
            toDisk := s1.toDisk ++ [bb]
            poolEmpty := s1.poolEmpty ++ [ub]
            bundle := none
            unbundle := none
            idxBundle := 0
            idxUnbundle := 0 })
      | _, _ => none
    else
      match s.unbundle, s.bundle with
      | some _, some bb =>
        some { s with
          poolEmpty := s.poolEmpty ++ [bb]
          poolFull := s.poolFull ++ [bb]
          bundle := none
          unbundle := none
          idxBundle := 0
          idxUnbundle := 0 }
      | some _, none => none
      | none, some bb =>
        some { s with
          poolEmpty := s.poolEmpty ++ [bb]
          bundle := none
          unbundle := none
          idxBundle := 0
          idxUnbundle := 0 }
      | none, none =>
        some { s with
          bundle := none
          unbundle := none
          idxBundle := 0
          idxUnbundle := 0 }
  else none

/-- `pc2_batcher_t::dequeue`, tail half (`pc2.cu:516-522`): read the slot at
`idx_unbundle`, advance, and retire the exhausted batch to `pool_empty`. -/
def batcherDequeueTake (K : Nat) (s : BatcherState) (b : Nat) :
    Option Nat × BatcherState :=
  (s.slots b s.idxUnbundle,
   if s.idxUnbundle + 1 = K then
     { s with poolEmpty := s.poolEmpty ++ [b], unbundle := none, idxUnbundle := 0 }
   else { s with idxUnbundle := s.idxUnbundle + 1 })

/-- `pc2_batcher_t::dequeue` (`pc2.cu:508-523`): acquire an unbundle batch
from `pool_full` if none is held (returning nullptr when that pool is
empty), then take the next buffer pointer. -/
def batcherDequeue (K : Nat) (s : BatcherState) : Option Nat × BatcherState :=
  match s.unbundle with
  | none =>
    match s.poolFull with
    | [] => (none, s)
    | b :: rest =>
      batcherDequeueTake K { s with unbundle := some b, poolFull := rest } b
  | some b => batcherDequeueTake K s b

/-- `pc2_batcher_t::enqueue`, tail half (`pc2.cu:534-540`): store the buffer
at `idx_bundle`, advance, and hand the filled batch to `to_disk`. -/
def batcherEnqueuePut (K : Nat) (s : BatcherState) (b buf : Nat) : BatcherState :=
  let s2 := { s with
    slots := setSlot s.slots b s.idxBundle (some buf)
    idxBundle := s.idxBundle + 1 }
  if s2.idxBundle = K then
    { s2 with toDisk := s2.toDisk ++ [b], bundle := none, idxBundle := 0 }
  else s2

/-- `pc2_batcher_t::enqueue` (`pc2.cu:525-541`): acquire a bundle batch from
`pool_empty` if none is held; `none` models the `assert(false)` reached
when that pool is empty. -/
def batcherEnqueue (K : Nat) (s : BatcherState) (buf : Nat) : Option BatcherState :=
  match s.bundle with
  | none =>
    match s.poolEmpty with
    | [] => none
    | b :: rest =>
      some (batcherEnqueuePut K { s with bundle := some b, poolEmpty := rest } b buf)
  | some b => some (batcherEnqueuePut K s b buf)

/-- Buffer slots holding data available to dequeue: remaining slots of the
current unbundle batch plus `BATCH_SIZE` per batch waiting in `pool_full`. -/
def dataSlots (K : Nat) (s : BatcherState) : Nat :=
  (match s.unbundle with | none => 0 | some _ => K - s.idxUnbundle)
    + s.poolFull.length * K

/-- Empty slots available to receive data: remaining slots of the current
bundle batch plus `BATCH_SIZE` per batch waiting in `pool_empty`. -/
def emptySlots (K : Nat) (s : BatcherState) : Nat :=
  (match s.bundle with | none => 0 | some _ => K - s.idxBundle)
    + s.poolEmpty.length * K

/-- `pc2_batcher_t::size` (`pc2.cu:543-553`). -/
def batcherSize (K : Nat) (s : BatcherState) : Nat :=
  min ((match s.unbundle with | none => 0 | some _ => K - s.idxUnbundle)
        + s.poolFull.length * K)
      ((match s.bundle with | none => 0 | some _ => K - s.idxBundle)
        + s.poolEmpty.length * K)

/-- A batcher immediately after construction (`pc2.cu:463-474`): it has
dequeued batch 0 from `pool_full` (initially `[0, 1]`) and batch 2 from
`pool_empty` (initially `[2, 3]`); both held batches are untouched
(`idx_bundle = idx_unbundle = 0`).  Four batches exist in total. -/
def untouchedBatcher : BatcherState :=
  { poolFull := [1]
    poolEmpty := [3]
    toDisk := []
    bundle := some 2
    unbundle := some 0
    idxBundle := 0
    idxUnbundle := 0
    slots := fun _ _ => none
    bufSize := fun _ => 0 }

/-- C3 fails on the code: flushing an untouched batcher enqueues the
*bundle* batch into both pools — `pc2.cu:499` runs `pool_full.enqueue(bundle)`
where `unbundle` was intended — so afterwards the unbundle batch (id 0)
sits in no queue and the bundle batch (id 2) sits in two; the numeric
conservation sum still reads 4, hiding the loss. -/
theorem flush_untouched_loses_unbundle :
    (batcherFlush 4 untouchedBatcher).map (fun s1 =>
      ((s1.poolFull ++ s1.poolEmpty ++ s1.toDisk).count 0,
       (s1.poolFull ++ s1.poolEmpty ++ s1.toDisk).count 2,
       s1.poolFull.length + s1.poolEmpty.length + s1.toDisk.length))
      = some (0, 2, 4) := by rfl

/-- A batcher holding a partially consumed pair with batch size `K = 4`:
`idx_bundle = idx_unbundle = 1`; the unbundle batch (id 0) holds buffer
pointers in its 4 slots, the bundle batch is id 1. -/
def partialBatcher : BatcherState :=
  { poolFull := []
    poolEmpty := []
    toDisk := []
    bundle := some 1
    unbundle := some 0
    idxBundle := 1
    idxUnbundle := 1
    slots := fun b i => if b = 0 ∧ i < 4 then some (10 + i) else none
    bufSize := fun _ => 7 }

/-- C9 fails on the code: from `idx_bundle = idx_unbundle = 1` with
`K = 4` the pad loop reads unbundle slots 1, 3 and then 5 — the double
increment of `idx_unbundle` steps past the 4-slot batch array — so flush
hits an invalid slot (modelled `none`) instead of completing the pad,
push and return described by the claim. -/
theorem flush_partial_crashes : batcherFlush 4 partialBatcher = none := by rfl

/-- C4: `size()` returns the minimum of the data-carrying slot count and
the empty-slot count, and — under the batcher invariants that the held
unbundle batch has non-null pointers in its remaining slots, that batches
waiting in `pool_full` are fully populated, and that `idx_unbundle` is in
range — `size() ≥ 1` guarantees the next `dequeue()` returns a non-null
buffer and the next `enqueue()` succeeds. -/
theorem batcher_size_backpressure (K : Nat) (s : BatcherState) (buf : Nat)
    (hWFidx : s.unbundle = none → s.idxUnbundle = 0)
    (hWFlt : ∀ b, s.unbundle = some b → s.idxUnbundle < K)
    (hWFub : ∀ b, s.unbundle = some b →
      ∀ i, s.idxUnbundle ≤ i → i < K → (s.slots b i).isSome)
    (hWFfull : ∀ b, b ∈ s.poolFull → ∀ i, i < K → (s.slots b i).isSome)
    (hsz : 1 ≤ batcherSize K s) :
    batcherSize K s = min (dataSlots K s) (emptySlots K s) ∧
    (batcherDequeue K s).1.isSome ∧ (batcherEnqueue K s buf).isSome := by
  have hd : 1 ≤ dataSlots K s := le_trans hsz (min_le_left _ _)
  have he : 1 ≤ emptySlots K s := le_trans hsz (min_le_right _ _)
  refine ⟨rfl, ?_, ?_⟩
  · cases hu : s.unbundle with
    | some b =>
      have hlt : s.idxUnbundle < K := hWFlt b hu
      have := hWFub b hu s.idxUnbundle (le_refl _) hlt
      simp [batcherDequeue, hu, batcherDequeueTake, this]
    | none =>
      rw [dataSlots, hu] at hd
      cases hf : s.poolFull with
      | nil => rw [hf] at hd; simp at hd
      | cons b rest =>
        have hKpos : 0 < K := by
          rw [hf] at hd
          by_contra hK
          have : K = 0 := by omega
          simp [this] at hd
        have hidx0 : s.idxUnbundle = 0 := hWFidx hu
        have hmem : b ∈ s.poolFull := by rw [hf]; exact List.mem_cons_self b rest
        have hsome := hWFfull b hmem 0 hKpos
        simp [batcherDequeue, hu, hf, batcherDequeueTake, hidx0, hsome]
  · cases hb : s.bundle with
    | some b => simp [batcherEnqueue, hb]
    | none =>
      rw [emptySlots, hb] at he
      cases hpe : s.poolEmpty with
      | nil => rw [hpe] at he; simp at he
      | cons b rest => simp [batcherEnqueue, hb, hpe]

/-- A small concrete batcher used to witness `batcher_size_backpressure`:
batch size 2, holding unbundle batch 0 (fully populated) and bundle
batch 1, both at index 0. -/
def c4State : BatcherState :=
  { poolFull := []
    poolEmpty := []
    toDisk := []
    bundle := some 1
    unbundle := some 0
    idxBundle := 0
    idxUnbundle := 0
    slots := fun b i => some (b * 10 + i)
    bufSize := fun _ => 1 }

theorem batcher_size_backpressure_witness :
    batcherSize 2 c4State = min (dataSlots 2 c4State) (emptySlots 2 c4State) ∧
    (batcherDequeue 2 c4State).1.isSome ∧
    (batcherEnqueue 2 c4State 99).isSome :=
  batcher_size_backpressure 2 c4State 99 (fun _ => rfl)
    (fun _ _ => by decide) (fun _ _ _ _ _ => rfl)
    (fun b hb => by simp [c4State] at hb) (by decide)

/-- Leaf-level input index of `pc2_t::hash_cpu` (`pc2.cu:1039-1045`): for
the work item at node `n`, Poseidon input lane `i` and sector `sector`,
the element read is `input[input_group * group_size * S + sector *
group_size + node_in_group]` with `first_input_node = n * TREE_ARITY`. -/
def hash_cpu_leaf_input_index (S A group_size sector n i : Nat) : Nat :=
  let first_input_node := n * A
  let input_group := (first_input_node + i) / group_size
  let node_in_group := (first_input_node + i) % group_size
  input_group * group_size * S + sector * group_size + node_in_group

/-- The write offset used by `hash_cpu`'s hash function (`pc2.cu:1031-1032`,
1048, 1058): the output of the work item at `(layer, node)` goes to byte
offset `final_tree.address(layer - 1, node) + file_offset`. -/
def hash_cpu_write_offset (ft : tree_address_t) (file_offset layer node : Nat) : Nat :=
  ft.address (layer - 1) node + file_offset

/-- `cpu_nodes_to_hash` (`pc2.cu:52`, also `nodes_to_hash` in
`pc2.cu:1019`): `batch_size * stream_count / TREE_ARITY / TREE_ARITY`. -/
def cpu_nodes_to_hash (batch_size stream_count A : Nat) : Nat :=
  batch_size * stream_count / A / A

/-- `final_tree` as constructed in the engine constructor (`pc2.cu:53`) and
in `hash_cpu` (`pc2.cu:1025`): an arity-`A` tree over `cpu_nodes_to_hash`
leaves with `node_size = sizeof(fr_t) = 32` and no skipped layers. -/
def final_tree (batch_size stream_count A : Nat) : tree_address_t :=
  mkTreeAddress (cpu_nodes_to_hash batch_size stream_count A) A 32 0

/-- `final_gpu_offset_c/r` (`pc2.cu:54-55`): where the CPU-hashed top of the
tree begins in the file, `tree_address.data_size() - final_tree.data_size()`
for the corresponding tree-c/tree-r address object. -/
def final_gpu_offset (tree_addr : tree_address_t) (batch_size stream_count A : Nat) : Nat :=
  tree_addr.data_size - (final_tree batch_size stream_count A).data_size

/-- C7: `hash_cpu` reads leaf input `i` for sector `s` and node `n` at
index `input_group * group_size * S + s * group_size + node_in_group`
where `input_group`/`node_in_group` are the div/mod of `n * A + i` by
`group_size = batch_size / A`; its `final_tree` is an arity-`A` tree over
`batch_size * stream_count / A²` leaves; and every hashed node at
`(layer, node)` is written at byte offset `final_tree.address(layer-1,
node) + file_offset` with `file_offset = tree_address.data_size() −
final_tree.data_size()`. -/
theorem hash_cpu_index_and_offsets (S A batch_size stream_count : Nat)
    (tree_addr : tree_address_t) :
    (∀ sector n i, hash_cpu_leaf_input_index S A (batch_size / A) sector n i
      = ((n * A + i) / (batch_size / A)) * (batch_size / A) * S
        + sector * (batch_size / A) + (n * A + i) % (batch_size / A)) ∧
    final_tree batch_size stream_count A
      = mkTreeAddress (batch_size * stream_count / A ^ 2) A 32 0 ∧
    (∀ layer node,
      hash_cpu_write_offset (final_tree batch_size stream_count A)
          (final_gpu_offset tree_addr batch_size stream_count A) layer node
        = (final_tree batch_size stream_count A).address (layer - 1) node
          + (tree_addr.data_size
              - (final_tree batch_size stream_count A).data_size)) := by
  refine ⟨fun sector n i => rfl, ?_, fun layer node => rfl⟩
  unfold final_tree cpu_nodes_to_hash
  rw [Nat.div_div_eq_div_mul, pow_two]

/-- The per-element encoding step of DATA_WAIT (`pc2.cu:700-712`): read
`data = data_files[i][start_node + j]`; byte-reverse the replica element
exactly when the reader's data is not big-endian; field-add `data`; reverse
back.  `F` abstracts the 32-byte field element, `rev` the byte reversal
`node_t::reverse_l`, `fadd` the field addition `operator+=`. -/
def encode_element (F : Type) (big_endian : Bool) (rev : F → F)
    (fadd : F → F → F) (elmt data : F) : F :=
  let e1 := if big_endian then elmt else rev elmt
  let e2 := fadd e1 data
  if big_endian then e2 else rev e2

/-- The inner `for (j = 0; j < batch_size; j++)` loop of DATA_WAIT for one
sector `i` (`pc2.cu:700-712`): each iteration rewrites flat buffer index
`i + j * S` in place. -/
def encode_sector (F : Type) (S B : Nat) (big_endian : Bool) (rev : F → F)
    (fadd : F → F → F) (dataFile : Nat → F) (start_node i : Nat)
    (buf : Nat → F) : Nat → F :=
  (List.range B).foldl (fun b j =>
    Function.update b (i + j * S)
      (encode_element F big_endian rev fadd (b (i + j * S))
        (dataFile (start_node + j)))) buf

/-- The DATA_WAIT encoding stage (`pc2.cu:683-714`): the buffer starts as a
copy of the layer-(N−1) slice (flat index `i + j * S` holds sector `i`'s
element `j`, per `&encode_buf[i + j * C::PARALLEL_SECTORS]`), then each
sector with an open data file is encoded in place. -/
def data_wait_encode (F : Type) (S B : Nat) (isOpen : Nat → Bool)
    (big_endian : Bool) (rev : F → F) (fadd : F → F → F)
    (dataFiles : Nat → Nat → F) (start_node : Nat) (layer11 : Nat → F) :
    Nat → F :=
  (List.range S).foldl (fun buf i =>
    if isOpen i then
      encode_sector F S B big_endian rev fadd (dataFiles i) start_node i buf
    else buf) layer11

theorem stride_index_ne (S i m j j2 : Nat) (hi : i < S) (hm : m < S)
    (hne : i ≠ m) : i + j * S ≠ m + j2 * S := by
  intro h
  have h1 : (i + j * S) % S = i := by
    rw [Nat.add_mul_mod_self_right, Nat.mod_eq_of_lt hi]
  have h2 : (m + j2 * S) % S = m := by
    rw [Nat.add_mul_mod_self_right, Nat.mod_eq_of_lt hm]
  rw [h] at h1
  omega

theorem encode_sector_untouched (F : Type) (S : Nat) (big : Bool)
    (rev : F → F) (fadd : F → F → F) (df : Nat → F) (sn i : Nat) :
    ∀ B buf idx, (∀ j, j < B → idx ≠ i + j * S) →
      encode_sector F S B big rev fadd df sn i buf idx = buf idx := by
  intro B
  induction B with
  | zero => intro buf idx h; rfl
  | succ B ih =>
    intro buf idx h
    unfold encode_sector
    rw [List.range_succ, List.foldl_append]
    simp only [List.foldl_cons, List.foldl_nil]
    rw [Function.update_noteq (h B (by omega))]
    exact ih buf idx (fun j hj => h j (by omega))

theorem encode_sector_hit (F : Type) (S : Nat) (big : Bool)
    (rev : F → F) (fadd : F → F → F) (df : Nat → F) (sn i : Nat)
    (hS : 0 < S) :
    ∀ B buf j, j < B →
      encode_sector F S B big rev fadd df sn i buf (i + j * S)
        = encode_element F big rev fadd (buf (i + j * S)) (df (sn + j)) := by
  intro B
  induction B with
  | zero => intro buf j hj; omega
  | succ B ih =>
    intro buf j hj
    unfold encode_sector
    rw [List.range_succ, List.foldl_append]
    simp only [List.foldl_cons, List.foldl_nil]
    by_cases hjB : j = B
    · rw [hjB, Function.update_same]
      have huntouched : ∀ j2, j2 < B → i + B * S ≠ i + j2 * S := by
        intro j2 hj2 heq
        have : j2 * S < B * S := Nat.mul_lt_mul_of_lt_of_le hj2 (le_refl S) hS
        omega
      have hu := encode_sector_untouched F S big rev fadd df sn i B buf
        (i + B * S) huntouched
      exact congrArg (fun x => encode_element F big rev fadd x (df (sn + B))) hu
    · have hjlt : j < B := by omega
      have hne : i + j * S ≠ i + B * S := by
        intro heq
        have : j * S < B * S := Nat.mul_lt_mul_of_lt_of_le hjlt (le_refl S) hS
        omega
      rw [Function.update_noteq hne]
      exact ih buf j hjlt

theorem data_wait_encode_aux (F : Type) (S B : Nat) (isOpen : Nat → Bool)
    (big : Bool) (rev : F → F) (fadd : F → F → F) (dfs : Nat → Nat → F)
    (sn : Nat) (layer11 : Nat → F) :
    ∀ m i j, m ≤ S → i < S → j < B →
      ((i < m → (List.range m).foldl (fun buf k =>
          if isOpen k then
            encode_sector F S B big rev fadd (dfs k) sn k buf
          else buf) layer11 (i + j * S)
        = if isOpen i then
            encode_element F big rev fadd (layer11 (i + j * S)) (dfs i (sn + j))
          else layer11 (i + j * S)) ∧
       (m ≤ i → (List.range m).foldl (fun buf k =>
          if isOpen k then
            encode_sector F S B big rev fadd (dfs k) sn k buf
          else buf) layer11 (i + j * S) = layer11 (i + j * S))) := by
  intro m
  induction m with
  | zero =>
    intro i j hmS hi hj
    exact ⟨fun h => absurd h (by omega), fun _ => rfl⟩
  | succ m ih =>
    intro i j hmS hi hj
    rw [List.range_succ, List.foldl_append]
    simp only [List.foldl_cons, List.foldl_nil]
    constructor
    · intro him
      by_cases hieq : i = m
      · subst hieq
        have hprev := (ih i j (by omega) hi hj).2 (le_refl i)
        by_cases hopen : isOpen i
        · rw [if_pos hopen, if_pos hopen,
            encode_sector_hit F S big rev fadd (dfs i) sn i (by omega) B _ j hj,
            hprev]
        · rw [if_neg hopen, if_neg hopen, hprev]
      · have hilt : i < m := by omega
        have hm : m < S := by omega
        have huntouched : ∀ j2, j2 < B → i + j * S ≠ m + j2 * S :=
          fun j2 _ => stride_index_ne S i m j j2 hi hm hieq
        by_cases hopen : isOpen m
        · rw [if_pos hopen,
            encode_sector_untouched F S big rev fadd (dfs m) sn m B _ _ huntouched]
          exact (ih i j (by omega) hi hj).1 hilt
        · rw [if_neg hopen]
          exact (ih i j (by omega) hi hj).1 hilt
    · intro him
      have hieq : i ≠ m := by omega
      have hm2 : m < S := by omega
      have huntouched : ∀ j2, j2 < B → i + j * S ≠ m + j2 * S :=
        fun j2 _ => stride_index_ne S i m j j2 hi hm2 hieq
      by_cases hopen : isOpen m
      · rw [if_pos hopen,
          encode_sector_untouched F S big rev fadd (dfs m) sn m B _ _ huntouched]
        exact (ih i j (by omega) hi hj).2 (by omega)
      · rw [if_neg hopen]
        exact (ih i j (by omega) hi hj).2 (by omega)

/-- C8: in DATA_WAIT, for each sector `i` with an open data file and each
`j < batch_size`, the replica element at flat position `i + j * S` becomes
`encode_element` of the layer-(N−1) element and the data-file element at
`start_node + j` — byte-reversed before the field addition and reversed
back after exactly when the reader's data is not big-endian — while
sectors without a data file keep the layer-(N−1) elements unchanged. -/
theorem data_wait_encode_spec (F : Type) (S B : Nat) (isOpen : Nat → Bool)
    (big : Bool) (rev : F → F) (fadd : F → F → F) (dfs : Nat → Nat → F)
    (sn : Nat) (layer11 : Nat → F) (i j : Nat) (hi : i < S) (hj : j < B) :
    data_wait_encode F S B isOpen big rev fadd dfs sn layer11 (i + j * S)
      = if isOpen i then
          encode_element F big rev fadd (layer11 (i + j * S)) (dfs i (sn + j))
        else layer11 (i + j * S) :=
  (data_wait_encode_aux F S B isOpen big rev fadd dfs sn layer11 S i j
    (le_refl S) hi hj).1 hi

theorem data_wait_encode_spec_witness :
    data_wait_encode Nat 2 2 (fun i => i == 0) false (fun x => x + 100)
        (fun x y => x + y) (fun i j => 10 * i + j) 5 (fun idx => idx) (0 + 1 * 2)
      = if (fun i : Nat => i == 0) 0 then
          encode_element Nat false (fun x => x + 100) (fun x y => x + y)
            ((fun idx : Nat => idx) (0 + 1 * 2)) ((fun i j => 10 * i + j) 0 (5 + 1))
        else (fun idx : Nat => idx) (0 + 1 * 2) :=
  data_wait_encode_spec Nat 2 2 (fun i => i == 0) false (fun x => x + 100)
    (fun x y => x + y) (fun i j => 10 * i + j) 5 (fun idx => idx) 0 1
    (by decide) (by decide)

/-- Shape (`size`, `stride`) of a `buf_to_disk_t` as filled in by the
engine.  The strided-gather path of `process_writes` (`pc2.cu:424-438`)
copies `staging[j] = src[i][j * stride]` for `j < size` into a staging
scratch allocated to hold `max_write_size` elements (`pc2.cu:397`). -/
structure BufShape where
  size : Nat
  stride : Nat

/-- Every (`size`, `stride`) pair the engine stores into a `buf_to_disk_t`,
with `B` the batch size, `A` the tree arity and `S` the parallel sector
count: the sealed-replica write (`pc2.cu:718-719`), the column write
(`pc2.cu:770-771`), the column-leaf write (`pc2.cu:839-840`), the tree-c
leaf write (`pc2.cu:921-922`), the tree-r leaf write (`pc2.cu:954-955`),
and the zero-sized padding buffers produced by `flush` (`pc2.cu:486`),
whose stale stride may be `S`. -/
def engineBufShapes (B A S : Nat) : List BufShape :=
  [⟨B, S⟩, ⟨B, 1⟩, ⟨B / A, 1⟩, ⟨B / A, 1⟩, ⟨B / A, 1⟩, ⟨0, S⟩]

/-- `max_write_size` as passed to `process_writes` when the writer threads
are spawned (`pc2.cu:574`): the batch size. -/
def pc2_max_write_size (B : Nat) : Nat := B

/-- C10: for every buffer the engine produces with `stride ≠ 1`, every
staging access `staging[j]`, `j < size`, lies inside the `max_write_size`
allocation; indeed, whenever the strided-gather path runs (`size ≠ 0`,
since zero-sized buffers are skipped at `pc2.cu:410`), `size` equals
`max_write_size`, so its guarding assertion
`max_write_size <= to_disk->size` also holds. -/
theorem process_writes_staging_in_bounds (B A S : Nat) (b : BufShape)
    (hb : b ∈ engineBufShapes B A S) (hstride : b.stride ≠ 1) :
    (∀ j, j < b.size → j < pc2_max_write_size B) ∧
    (b.size ≠ 0 → b.size = pc2_max_write_size B) := by
  simp only [engineBufShapes, List.mem_cons, List.not_mem_nil, or_false] at hb
  rcases hb with rfl | rfl | rfl | rfl | rfl | rfl
  · exact ⟨fun j hj => hj, fun _ => rfl⟩
  · exact absurd rfl hstride
  · exact absurd rfl hstride
  · exact absurd rfl hstride
  · exact absurd rfl hstride
  · exact ⟨fun j hj => absurd hj (Nat.not_lt_zero j), fun h => absurd rfl h⟩

theorem process_writes_staging_in_bounds_witness :
    (∀ j, j < (BufShape.mk 4 2).size → j < pc2_max_write_size 4) ∧
    ((BufShape.mk 4 2).size ≠ 0 → (BufShape.mk 4 2).size = pc2_max_write_size 4) :=
  process_writes_staging_in_bounds 4 8 2 (BufShape.mk 4 2)
    (List.mem_cons_self _ _) (by decide)
